import Mathlib

/-
  Verification of the structural JSON matcher and stub record model of
  protoc-gen-mock (src/stub/model.go).

  The matcher `jsonStringMatches` works on Go values decoded by
  `encoding/json` into `map[string]interface{}`: objects become maps,
  arrays become `[]interface{}`, strings become `string`, numbers become
  `float64`, booleans become `bool`, and JSON null becomes a nil
  interface.  We model a decoded value as the inductive `JsonValue`.
  JSON numbers are modeled as integers: every claim under study uses
  only small integer literals, and no claim depends on float64
  representation details.

  Go's `==` on two `interface{}` values panics at runtime when the two
  dynamic types are equal but uncomparable (slices and maps).  A panic
  is modeled by `Option`: `none` is a panic, `some b` a returned
  boolean.

  Go map iteration order is unspecified; we model objects as ordered
  association lists and iterate in list order.  The boolean outcome of
  the matcher is order-independent; the concrete panic evaluations below
  use single-field objects, where the order is irrelevant.
-/

inductive JsonValue where
  | obj (fields : List (String × JsonValue))
  | arr (items : List JsonValue)
  | str (s : String)
  | num (n : Int)
  | boolean (b : Bool)
  | null

theorem sizeOf_jsonValue_pos (v : JsonValue) : 0 < sizeOf v := by
  cases v <;> simp_arith

theorem sizeOf_jsonItems_pos (xs : List JsonValue) : 0 < sizeOf xs := by
  cases xs <;> simp_arith

/-- The JSON kind of a decoded value, as dispatched on in the source via
`fmt.Sprintf("%T", v)` (`map[string]interface {}`, `[]interface {}`,
`string`, `float64`, `bool`, `<nil>`). -/
inductive JsonKind where
  | obj | arr | str | num | boolean | null
deriving DecidableEq

def JsonValue.kind : JsonValue → JsonKind
  | .obj _ => .obj
  | .arr _ => .arr
  | .str _ => .str
  | .num _ => .num
  | .boolean _ => .boolean
  | .null => .null

/-- Go `==` between two decoded `interface{}` values.  Equal dynamic
types that are uncomparable (maps, slices) panic (`none`); different
dynamic types compare unequal without panicking; scalars compare by
value (two nil interfaces are equal). -/
def goEq : JsonValue → JsonValue → Option Bool
  | .obj _, .obj _ => none
  | .arr _, .arr _ => none
  | .str s, .str t => some (s == t)
  | .num m, .num n => some (m == n)
  | .boolean b, .boolean c => some (b == c)
  | .null, .null => some true
  | _, _ => some false

/-- Go map lookup `otherJsonMap[key]` on the decoded object. -/
def lookupField : List (String × JsonValue) → String → Option JsonValue
  | [], _ => none
  | (k, v) :: rest, key => if k = key then some v else lookupField rest key

mutual

/-- `jsonStringMatches(jsonMap, otherJsonMap, mustBeEqual)` from
model.go: the exact-mode field-count gate followed by the per-field
loop. -/
def jsonStringMatches (jsonMap otherJsonMap : List (String × JsonValue))
    (mustBeEqual : Bool) : Option Bool :=
  if mustBeEqual = true ∧ jsonMap.length ≠ otherJsonMap.length then some false
  else matchFields jsonMap otherJsonMap mustBeEqual
termination_by (sizeOf jsonMap, 1)

/-- The `for key, value := range jsonMap` loop of `jsonStringMatches`:
every expected field must be present in the actual map and pass the
per-field comparison. -/
def matchFields (jsonMap otherJsonMap : List (String × JsonValue))
    (mustBeEqual : Bool) : Option Bool :=
  match jsonMap with
  | [] => some true
  | (key, value) :: rest =>
    match lookupField otherJsonMap key with
    | none => some false
    | some otherValue =>
      match fieldCompare value otherValue mustBeEqual with
      | none => none
      | some false => some false
      | some true => matchFields rest otherJsonMap mustBeEqual
termination_by (sizeOf jsonMap, 0)

/-- One iteration of the field loop: the `%T` kind comparison followed
by the `switch valueType` dispatch (object recursion, array rule,
scalar `value != otherValue`). -/
def fieldCompare (value otherValue : JsonValue) (mustBeEqual : Bool) :
    Option Bool :=
  if value.kind ≠ otherValue.kind then some false
  else
    match value, otherValue with
    | .obj o, .obj o' => jsonStringMatches o o' mustBeEqual
    | .arr items, .arr otherItems =>
      if items.length ≠ otherItems.length then some false
      else matchItems items otherItems mustBeEqual
    | v, v' => goEq v v'
termination_by (sizeOf value, 3)

/-- The `for _, item := range items` loop of the array case: every
expected element must find some counterpart. -/
def matchItems (items otherItems : List JsonValue) (mustBeEqual : Bool) :
    Option Bool :=
  match items with
  | [] => some true
  | item :: rest =>
    match searchItem item otherItems mustBeEqual with
    | none => none
    | some false => some false
    | some true => matchItems rest otherItems mustBeEqual
termination_by (sizeOf items, 0)

/-- The inner `for _, otherItem := range otherItems` search loop:
skip counterparts of a different kind, otherwise compare the pair; a
successful comparison sets `found` and breaks, a failed one moves on,
a panic propagates. -/
def searchItem (item : JsonValue) (otherItems : List JsonValue)
    (mustBeEqual : Bool) : Option Bool :=
  match otherItems with
  | [] => some false
  | otherItem :: rest =>
    if item.kind ≠ otherItem.kind then searchItem item rest mustBeEqual
    else
      match searchStep item otherItem mustBeEqual with
      | none => none
      | some true => some true
      | some false => searchItem item rest mustBeEqual
termination_by (sizeOf item, sizeOf otherItems)
decreasing_by
  all_goals apply Prod.Lex.right
  all_goals simp_arith

/-- The body of the search loop for one candidate pair of equal kind:
the `switch itemType` dispatch — recurse for objects, Go `==` for
everything else (which panics on nested arrays). -/
def searchStep (item otherItem : JsonValue) (mustBeEqual : Bool) :
    Option Bool :=
  match item, otherItem with
  | .obj o, .obj o' => jsonStringMatches o o' mustBeEqual
  | v, v' => goEq v v'
termination_by (sizeOf item, 0)

end

/-- A content field's JSON text, abstracted to its decoding outcome:
either syntactically valid JSON decoding to a value tree, or malformed
text on which `json.Unmarshal` errs.  (Decoding text into tree form is
a precondition of the matcher; the comparator only inspects decoded
trees.) -/
inductive JsonDoc where
  | valid (v : JsonValue)
  | malformed

/-- `json.Unmarshal([]byte(text), jsonMap)` with `jsonMap` a fresh
`map[string]interface{}` and the error ignored, as done in
`JsonString.Matches` / `JsonString.Equals`: a JSON object yields its
fields; any non-object document or malformed text leaves the map nil,
i.e. empty. -/
def unmarshalMap : JsonDoc → List (String × JsonValue)
  | .valid (.obj fields) => fields
  | _ => []

/-- `func (j *JsonString) Matches(other JsonString) bool` from model.go:
decode both texts into maps (errors ignored) and compare with
`mustBeEqual = false`. -/
def JsonString.Matches (j other : JsonDoc) : Option Bool :=
  jsonStringMatches (unmarshalMap j) (unmarshalMap other) false

/-- `func (j *JsonString) Equals(other JsonString) bool` from model.go:
decode both texts into maps (errors ignored) and compare with
`mustBeEqual = true`. -/
def JsonString.Equals (j other : JsonDoc) : Option Bool :=
  jsonStringMatches (unmarshalMap j) (unmarshalMap other) true

/-- `func (j *JsonString) MarshalJSON() ([]byte, error)` from model.go:
an empty stored value is emitted as the literal `{}`, any other stored
value is emitted unchanged; the error is always nil, so only the text
is modeled. -/
def JsonString.MarshalJSON (val : String) : String :=
  if val = "" then "{}" else val

/-- The raw JSON found at the `type` key of a stub record being
decoded: the key may be absent, or present with a payload.
`present (some s)` is a JSON string literal; `present none` is a
payload that `json.Unmarshal` does not decode into a string (e.g.
`null`), leaving the `*string` nil. -/
inductive RawTypeField where
  | absent
  | present (payload : Option String)

/-- `func (j *StubType) UnmarshalJSON(data []byte) error` from
model.go: unmarshal `data` into a `*string` and replace the empty
string by `"mock"`.  When the payload did not decode into a string the
pointer stays nil and `*str` panics, modeled by `none`. -/
def StubType.UnmarshalJSON : Option String → Option String
  | none => none
  | some s => some (if s = "" then "mock" else s)

/-- The effective `Type` field of a `Stub` after `encoding/json`
decodes a stub record: the custom `UnmarshalJSON` runs only for keys
present in the record; an absent key leaves the field's zero value,
the empty string. -/
def decodeStubType : RawTypeField → Option String
  | .absent => some ""
  | .present payload => StubType.UnmarshalJSON payload

mutual

/-- No array in this value directly contains an array.  Inputs whose
expected side satisfies this never reach the panicking `==` between two
`[]interface{}` values in the search loop. -/
def noAIA : JsonValue → Bool
  | .obj fields => noAIAFields fields
  | .arr items => noAIAItems items
  | _ => true
termination_by v => sizeOf v

def noAIAFields : List (String × JsonValue) → Bool
  | [] => true
  | (_, v) :: rest => noAIA v && noAIAFields rest
termination_by fields => sizeOf fields

def noAIAItems : List JsonValue → Bool
  | [] => true
  | x :: rest => (decide (x.kind ≠ JsonKind.arr) && noAIA x) && noAIAItems rest
termination_by items => sizeOf items

end

theorem sizeOf_jsonFields_pos (fields : List (String × JsonValue)) :
    0 < sizeOf fields := by
  cases fields <;> simp_arith

theorem kind_eq_obj_iff (v : JsonValue) :
    v.kind = JsonKind.obj ↔ ∃ fs, v = JsonValue.obj fs := by
  cases v <;> simp [JsonValue.kind]

theorem kind_eq_arr_iff (v : JsonValue) :
    v.kind = JsonKind.arr ↔ ∃ xs, v = JsonValue.arr xs := by
  cases v <;> simp [JsonValue.kind]

theorem goEq_ne_none_of_not_obj_arr {v : JsonValue} (h1 : v.kind ≠ JsonKind.obj)
    (h2 : v.kind ≠ JsonKind.arr) (v' : JsonValue) : goEq v v' ≠ none := by
  cases v <;> cases v' <;> simp_all [goEq, JsonValue.kind]

theorem goEq_true_iff {v v' : JsonValue} :
    goEq v v' = some true ↔
      v = v' ∧ v.kind ≠ JsonKind.obj ∧ v.kind ≠ JsonKind.arr := by
  cases v <;> cases v' <;> simp [goEq, JsonValue.kind]

theorem fieldCompare_kind_ne {v v' : JsonValue} (h : v.kind ≠ v'.kind)
    (ex : Bool) : fieldCompare v v' ex = some false := by
  unfold fieldCompare
  simp [h]

theorem fieldCompare_obj_obj (o o' : List (String × JsonValue)) (ex : Bool) :
    fieldCompare (JsonValue.obj o) (JsonValue.obj o') ex =
      jsonStringMatches o o' ex := by
  unfold fieldCompare
  simp [JsonValue.kind]

theorem fieldCompare_arr_arr (xs ys : List JsonValue) (ex : Bool) :
    fieldCompare (JsonValue.arr xs) (JsonValue.arr ys) ex =
      if xs.length ≠ ys.length then some false
      else matchItems xs ys ex := by
  unfold fieldCompare
  simp [JsonValue.kind]

theorem fieldCompare_scalar {v v' : JsonValue} (h1 : v.kind ≠ JsonKind.obj)
    (h2 : v.kind ≠ JsonKind.arr) (ex : Bool) :
    fieldCompare v v' ex = if v.kind ≠ v'.kind then some false else goEq v v' := by
  cases v <;> cases v' <;> simp_all [fieldCompare, JsonValue.kind, goEq]

theorem searchStep_obj_obj (o o' : List (String × JsonValue)) (ex : Bool) :
    searchStep (JsonValue.obj o) (JsonValue.obj o') ex =
      jsonStringMatches o o' ex := by
  unfold searchStep
  rfl

theorem searchStep_not_obj {x y : JsonValue}
    (h : x.kind ≠ JsonKind.obj ∨ y.kind ≠ JsonKind.obj) (ex : Bool) :
    searchStep x y ex = goEq x y := by
  cases x <;> cases y <;> simp_all [searchStep, JsonValue.kind]

theorem matchFields_of_jsonStringMatches_true
    {e a : List (String × JsonValue)} {ex : Bool}
    (h : jsonStringMatches e a ex = some true) : matchFields e a ex = some true := by
  unfold jsonStringMatches at h
  split at h
  · simp at h
  · exact h

theorem jsonStringMatches_ne_none {e a : List (String × JsonValue)} {ex : Bool}
    (h : matchFields e a ex ≠ none) : jsonStringMatches e a ex ≠ none := by
  unfold jsonStringMatches
  split
  · simp
  · exact h

theorem jsonStringMatches_false_mode (e a : List (String × JsonValue)) :
    jsonStringMatches e a false = matchFields e a false := by
  unfold jsonStringMatches
  simp

theorem searchItem_true_exists {x : JsonValue} {ex : Bool} :
    ∀ ys : List JsonValue, searchItem x ys ex = some true →
      ∃ y ∈ ys, y.kind = x.kind ∧ searchStep x y ex = some true := by
  intro ys
  induction ys with
  | nil =>
    intro h
    rw [searchItem] at h
    simp at h
  | cons y rest ih =>
    intro h
    rw [searchItem] at h
    by_cases hk : x.kind = y.kind
    · simp only [hk, ne_eq, not_true_eq_false, if_false] at h
      cases hs : searchStep x y ex with
      | none => rw [hs] at h; simp at h
      | some b =>
        cases b
        · rw [hs] at h
          simp only at h
          obtain ⟨y', hy', hk', hs'⟩ := ih h
          exact ⟨y', List.mem_cons_of_mem _ hy', hk', hs'⟩
        · exact ⟨y, List.mem_cons_self _ _, hk.symm, hs⟩
    · simp only [ne_eq, hk, not_false_eq_true, if_true] at h
      obtain ⟨y', hy', hk', hs'⟩ := ih h
      exact ⟨y', List.mem_cons_of_mem _ hy', hk', hs'⟩

theorem matchFields_cons_none {a : List (String × JsonValue)} {k : String}
    (v : JsonValue) (rest : List (String × JsonValue)) (ex : Bool)
    (hl : lookupField a k = none) :
    matchFields ((k, v) :: rest) a ex = some false := by
  rw [matchFields, hl]

theorem matchFields_cons_some {a : List (String × JsonValue)} {k : String}
    {v' : JsonValue} (v : JsonValue) (rest : List (String × JsonValue))
    (ex : Bool) (hl : lookupField a k = some v') :
    matchFields ((k, v) :: rest) a ex =
      match fieldCompare v v' ex with
      | none => none
      | some false => some false
      | some true => matchFields rest a ex := by
  rw [matchFields, hl]

theorem matchItems_cons (x : JsonValue) (rest ys : List JsonValue) (ex : Bool) :
    matchItems (x :: rest) ys ex =
      match searchItem x ys ex with
      | none => none
      | some false => some false
      | some true => matchItems rest ys ex := by
  rw [matchItems]

theorem searchItem_cons_kind_ne {x y : JsonValue} (rest : List JsonValue)
    (ex : Bool) (h : x.kind ≠ y.kind) :
    searchItem x (y :: rest) ex = searchItem x rest ex := by
  rw [searchItem]
  simp [h]

theorem searchItem_cons_kind_eq {x y : JsonValue} (rest : List JsonValue)
    (ex : Bool) (h : x.kind = y.kind) :
    searchItem x (y :: rest) ex =
      match searchStep x y ex with
      | none => none
      | some true => some true
      | some false => searchItem x rest ex := by
  rw [searchItem]
  simp [h]

theorem noPanicAux : ∀ n : Nat,
    (∀ e, sizeOf e ≤ n → noAIAFields e = true →
        ∀ a ex, matchFields e a ex ≠ none)
  ∧ (∀ v, sizeOf v ≤ n → noAIA v = true →
        ∀ v' ex, fieldCompare v v' ex ≠ none)
  ∧ (∀ xs, sizeOf xs ≤ n → noAIAItems xs = true →
        ∀ ys ex, matchItems xs ys ex ≠ none)
  ∧ (∀ x, sizeOf x ≤ n → x.kind ≠ JsonKind.arr → noAIA x = true →
        ∀ ys ex, searchItem x ys ex ≠ none) := by
  intro n
  induction n with
  | zero =>
    refine ⟨?_, ?_, ?_, ?_⟩
    · intro e hsz
      have := sizeOf_jsonFields_pos e
      omega
    · intro v hsz
      have := sizeOf_jsonValue_pos v
      omega
    · intro xs hsz
      have := sizeOf_jsonItems_pos xs
      omega
    · intro x hsz
      have := sizeOf_jsonValue_pos x
      omega
  | succ n ih =>
    obtain ⟨ihF, ihC, ihI, ihS⟩ := ih
    have hF : ∀ e, sizeOf e ≤ n + 1 → noAIAFields e = true →
        ∀ a ex, matchFields e a ex ≠ none := by
      intro e hsz hno a ex
      cases e with
      | nil =>
        rw [matchFields]
        simp
      | cons p rest =>
        obtain ⟨k, v⟩ := p
        rw [matchFields]
        rw [noAIAFields] at hno
        simp only [Bool.and_eq_true] at hno
        simp only [List.cons.sizeOf_spec, Prod.mk.sizeOf_spec] at hsz
        cases hl : lookupField a k with
        | none => simp
        | some v' =>
          cases hc : fieldCompare v v' ex with
          | none => exact absurd hc (ihC v (by omega) hno.1 v' ex)
          | some b =>
            cases b
            · simp [hc]
            · simp only [hc]
              exact ihF rest (by omega) hno.2 a ex
    have hC : ∀ v, sizeOf v ≤ n + 1 → noAIA v = true →
        ∀ v' ex, fieldCompare v v' ex ≠ none := by
      intro v hsz hno v' ex
      by_cases hk : v.kind = v'.kind
      · cases v with
        | obj o =>
          obtain ⟨o', rfl⟩ := (kind_eq_obj_iff v').mp (by rw [← hk]; rfl)
          rw [fieldCompare_obj_obj]
          apply jsonStringMatches_ne_none
          rw [noAIA] at hno
          simp only [JsonValue.obj.sizeOf_spec] at hsz
          exact ihF o (by omega) hno o' ex
        | arr xs =>
          obtain ⟨ys', rfl⟩ := (kind_eq_arr_iff v').mp (by rw [← hk]; rfl)
          rw [fieldCompare_arr_arr]
          split
          · simp
          · rw [noAIA] at hno
            simp only [JsonValue.arr.sizeOf_spec] at hsz
            exact ihI xs (by omega) hno ys' ex
        | str s =>
          rw [fieldCompare_scalar (by simp [JsonValue.kind]) (by simp [JsonValue.kind])]
          split
          · simp
          · exact goEq_ne_none_of_not_obj_arr (by simp [JsonValue.kind])
              (by simp [JsonValue.kind]) v'
        | num m =>
          rw [fieldCompare_scalar (by simp [JsonValue.kind]) (by simp [JsonValue.kind])]
          split
          · simp
          · exact goEq_ne_none_of_not_obj_arr (by simp [JsonValue.kind])
              (by simp [JsonValue.kind]) v'
        | boolean b =>
          rw [fieldCompare_scalar (by simp [JsonValue.kind]) (by simp [JsonValue.kind])]
          split
          · simp
          · exact goEq_ne_none_of_not_obj_arr (by simp [JsonValue.kind])
              (by simp [JsonValue.kind]) v'
        | null =>
          rw [fieldCompare_scalar (by simp [JsonValue.kind]) (by simp [JsonValue.kind])]
          split
          · simp
          · exact goEq_ne_none_of_not_obj_arr (by simp [JsonValue.kind])
              (by simp [JsonValue.kind]) v'
      · rw [fieldCompare_kind_ne hk]
        simp
    have hI : ∀ xs, sizeOf xs ≤ n + 1 → noAIAItems xs = true →
        ∀ ys ex, matchItems xs ys ex ≠ none := by
      intro xs hsz hno ys ex
      cases xs with
      | nil =>
        rw [matchItems]
        simp
      | cons x rest =>
        rw [matchItems]
        rw [noAIAItems] at hno
        simp only [Bool.and_eq_true, decide_eq_true_eq] at hno
        simp only [List.cons.sizeOf_spec] at hsz
        cases hs : searchItem x ys ex with
        | none => exact absurd hs (ihS x (by omega) hno.1.1 hno.1.2 ys ex)
        | some b =>
          cases b
          · simp [hs]
          · simp only [hs]
            exact ihI rest (by omega) hno.2 ys ex
    have hS : ∀ x, sizeOf x ≤ n + 1 → x.kind ≠ JsonKind.arr → noAIA x = true →
        ∀ ys ex, searchItem x ys ex ≠ none := by
      intro x hszx hkarr hnox ys ex
      induction ys with
      | nil =>
        rw [searchItem]
        simp
      | cons y rest ihys =>
        rw [searchItem]
        by_cases hk : x.kind = y.kind
        · simp only [hk, ne_eq, not_true_eq_false, if_false]
          cases hs : searchStep x y ex with
          | none =>
            exfalso
            cases x with
            | obj o =>
              obtain ⟨o', rfl⟩ := (kind_eq_obj_iff y).mp (by rw [← hk]; rfl)
              rw [searchStep_obj_obj] at hs
              rw [noAIA] at hnox
              simp only [JsonValue.obj.sizeOf_spec] at hszx
              exact jsonStringMatches_ne_none (ihF o (by omega) hnox o' ex) hs
            | arr xs => exact hkarr rfl
            | str s =>
              rw [searchStep_not_obj (Or.inl (by simp [JsonValue.kind]))] at hs
              exact goEq_ne_none_of_not_obj_arr (by simp [JsonValue.kind])
                (by simp [JsonValue.kind]) y hs
            | num m =>
              rw [searchStep_not_obj (Or.inl (by simp [JsonValue.kind]))] at hs
              exact goEq_ne_none_of_not_obj_arr (by simp [JsonValue.kind])
                (by simp [JsonValue.kind]) y hs
            | boolean b =>
              rw [searchStep_not_obj (Or.inl (by simp [JsonValue.kind]))] at hs
              exact goEq_ne_none_of_not_obj_arr (by simp [JsonValue.kind])
                (by simp [JsonValue.kind]) y hs
            | null =>
              rw [searchStep_not_obj (Or.inl (by simp [JsonValue.kind]))] at hs
              exact goEq_ne_none_of_not_obj_arr (by simp [JsonValue.kind])
                (by simp [JsonValue.kind]) y hs
          | some b =>
            cases b
            · simp only [hs]
              exact ihys
            · simp [hs]
        · simp only [ne_eq, hk, not_false_eq_true, if_true]
          exact ihys
    exact ⟨hF, hC, hI, hS⟩

theorem matchFields_ne_none_of_noAIA {e : List (String × JsonValue)}
    (hno : noAIAFields e = true) (a : List (String × JsonValue)) (ex : Bool) :
    matchFields e a ex ≠ none :=
  (noPanicAux (sizeOf e)).1 e le_rfl hno a ex

theorem jsonStringMatches_ne_none_of_noAIA {e : List (String × JsonValue)}
    (hno : noAIAFields e = true) (a : List (String × JsonValue)) (ex : Bool) :
    jsonStringMatches e a ex ≠ none :=
  jsonStringMatches_ne_none (matchFields_ne_none_of_noAIA hno a ex)

theorem trueNoAIAAux : ∀ n : Nat,
    (∀ e, sizeOf e ≤ n → ∀ a ex, matchFields e a ex = some true →
        noAIAFields e = true)
  ∧ (∀ v, sizeOf v ≤ n → ∀ v' ex, fieldCompare v v' ex = some true →
        noAIA v = true)
  ∧ (∀ xs, sizeOf xs ≤ n → ∀ ys ex, matchItems xs ys ex = some true →
        noAIAItems xs = true)
  ∧ (∀ x, sizeOf x ≤ n → ∀ ys ex, searchItem x ys ex = some true →
        x.kind ≠ JsonKind.arr ∧ noAIA x = true) := by
  intro n
  induction n with
  | zero =>
    refine ⟨?_, ?_, ?_, ?_⟩
    · intro e hsz
      have := sizeOf_jsonFields_pos e
      omega
    · intro v hsz
      have := sizeOf_jsonValue_pos v
      omega
    · intro xs hsz
      have := sizeOf_jsonItems_pos xs
      omega
    · intro x hsz
      have := sizeOf_jsonValue_pos x
      omega
  | succ n ih =>
    obtain ⟨ihF, ihC, ihI, ihS⟩ := ih
    have hF : ∀ e, sizeOf e ≤ n + 1 → ∀ a ex, matchFields e a ex = some true →
        noAIAFields e = true := by
      intro e hsz a ex h
      cases e with
      | nil => rw [noAIAFields]
      | cons p rest =>
        obtain ⟨k, v⟩ := p
        simp only [List.cons.sizeOf_spec, Prod.mk.sizeOf_spec] at hsz
        cases hl : lookupField a k with
        | none =>
          rw [matchFields_cons_none v rest ex hl] at h
          simp at h
        | some v' =>
          rw [matchFields_cons_some v rest ex hl] at h
          cases hc : fieldCompare v v' ex with
          | none =>
            rw [hc] at h
            simp at h
          | some b =>
            rw [hc] at h
            cases b
            · simp at h
            · have h' : matchFields rest a ex = some true := h
              rw [noAIAFields]
              simp only [Bool.and_eq_true]
              exact ⟨ihC v (by omega) v' ex hc, ihF rest (by omega) a ex h'⟩
    have hC : ∀ v, sizeOf v ≤ n + 1 → ∀ v' ex, fieldCompare v v' ex = some true →
        noAIA v = true := by
      intro v hsz v' ex h
      by_cases hk : v.kind = v'.kind
      · cases v with
        | obj o =>
          obtain ⟨o', rfl⟩ := (kind_eq_obj_iff v').mp (by rw [← hk]; rfl)
          rw [fieldCompare_obj_obj] at h
          simp only [JsonValue.obj.sizeOf_spec] at hsz
          rw [noAIA]
          exact ihF o (by omega) o' ex (matchFields_of_jsonStringMatches_true h)
        | arr xs =>
          obtain ⟨ys', rfl⟩ := (kind_eq_arr_iff v').mp (by rw [← hk]; rfl)
          rw [fieldCompare_arr_arr] at h
          simp only [JsonValue.arr.sizeOf_spec] at hsz
          split at h
          · simp at h
          · rw [noAIA]
            exact ihI xs (by omega) ys' ex h
        | str s => simp [noAIA]
        | num m => simp [noAIA]
        | boolean b => simp [noAIA]
        | null => simp [noAIA]
      · rw [fieldCompare_kind_ne hk] at h
        simp at h
    have hI : ∀ xs, sizeOf xs ≤ n + 1 → ∀ ys ex, matchItems xs ys ex = some true →
        noAIAItems xs = true := by
      intro xs hsz ys ex h
      cases xs with
      | nil => rw [noAIAItems]
      | cons x rest =>
        rw [matchItems_cons] at h
        simp only [List.cons.sizeOf_spec] at hsz
        cases hs : searchItem x ys ex with
        | none =>
          rw [hs] at h
          simp at h
        | some b =>
          rw [hs] at h
          cases b
          · simp at h
          · have h' : matchItems rest ys ex = some true := h
            obtain ⟨hkx, hnox⟩ := ihS x (by omega) ys ex hs
            rw [noAIAItems]
            simp only [Bool.and_eq_true, decide_eq_true_eq]
            exact ⟨⟨hkx, hnox⟩, ihI rest (by omega) ys ex h'⟩
    have hS : ∀ x, sizeOf x ≤ n + 1 → ∀ ys ex, searchItem x ys ex = some true →
        x.kind ≠ JsonKind.arr ∧ noAIA x = true := by
      intro x hsz ys ex h
      obtain ⟨y, hy, hk, hstep⟩ := searchItem_true_exists ys h
      cases x with
      | obj o =>
        obtain ⟨o', rfl⟩ := (kind_eq_obj_iff y).mp (by rw [hk]; rfl)
        rw [searchStep_obj_obj] at hstep
        simp only [JsonValue.obj.sizeOf_spec] at hsz
        refine ⟨by simp [JsonValue.kind], ?_⟩
        rw [noAIA]
        exact ihF o (by omega) o' ex (matchFields_of_jsonStringMatches_true hstep)
      | arr xs =>
        exfalso
        obtain ⟨ys', rfl⟩ := (kind_eq_arr_iff y).mp (by rw [hk]; rfl)
        rw [searchStep_not_obj (Or.inl (by simp [JsonValue.kind]))] at hstep
        simp [goEq] at hstep
      | str s => exact ⟨by simp [JsonValue.kind], by simp [noAIA]⟩
      | num m => exact ⟨by simp [JsonValue.kind], by simp [noAIA]⟩
      | boolean b => exact ⟨by simp [JsonValue.kind], by simp [noAIA]⟩
      | null => exact ⟨by simp [JsonValue.kind], by simp [noAIA]⟩
    exact ⟨hF, hC, hI, hS⟩

theorem noAIAFields_of_matchFields_true {e a : List (String × JsonValue)}
    {ex : Bool} (h : matchFields e a ex = some true) : noAIAFields e = true :=
  (trueNoAIAAux (sizeOf e)).1 e le_rfl a ex h

theorem noAIAFields_of_jsonStringMatches_true {e a : List (String × JsonValue)}
    {ex : Bool} (h : jsonStringMatches e a ex = some true) : noAIAFields e = true :=
  noAIAFields_of_matchFields_true (matchFields_of_jsonStringMatches_true h)

theorem goEq_ne_none_of_kind_ne {v v' : JsonValue} (h : v.kind ≠ v'.kind) :
    goEq v v' ≠ none := by
  cases v <;> cases v' <;> simp_all [goEq, JsonValue.kind]

theorem searchStep_eq_goEq_of_kind_ne {x y : JsonValue} (hk : x.kind ≠ y.kind)
    (ex : Bool) : searchStep x y ex = goEq x y := by
  cases x <;> cases y <;> simp_all [searchStep, JsonValue.kind]

theorem searchStep_true_kind_eq {x y : JsonValue} {ex : Bool}
    (h : searchStep x y ex = some true) : x.kind = y.kind := by
  cases x <;> cases y <;> simp_all [searchStep, goEq, JsonValue.kind]

theorem searchStep_true_noAIA {x y : JsonValue} {ex : Bool}
    (h : searchStep x y ex = some true) :
    x.kind ≠ JsonKind.arr ∧ noAIA x = true := by
  have hone : searchItem x [y] ex = some true := by
    rw [searchItem_cons_kind_eq [] ex (searchStep_true_kind_eq h), h]
  exact (trueNoAIAAux (sizeOf x)).2.2.2 x le_rfl [y] ex hone

theorem searchStep_ne_none_of_true {x yj : JsonValue} {ex : Bool}
    (h : searchStep x yj ex = some true) (y : JsonValue) (ex' : Bool) :
    searchStep x y ex' ≠ none := by
  obtain ⟨hka, hno⟩ := searchStep_true_noAIA h
  by_cases hk : x.kind = y.kind
  · have h1 : searchItem x [y] ex' ≠ none :=
      (noPanicAux (sizeOf x)).2.2.2 x le_rfl hka hno [y] ex'
    rw [searchItem_cons_kind_eq [] ex' hk] at h1
    intro hc
    rw [hc] at h1
    exact h1 rfl
  · rw [searchStep_eq_goEq_of_kind_ne hk]
    exact goEq_ne_none_of_kind_ne hk

theorem searchItem_true_iff {x : JsonValue} {ex : Bool} (ys : List JsonValue) :
    searchItem x ys ex = some true ↔
      ∃ y ∈ ys, y.kind = x.kind ∧ searchStep x y ex = some true := by
  constructor
  · exact searchItem_true_exists ys
  · induction ys with
    | nil =>
      intro hex
      simp at hex
    | cons y rest ih =>
      intro hex
      simp only [List.mem_cons] at hex
      obtain ⟨y', hy', hk', hs'⟩ := hex
      cases hy' with
      | inl heq =>
        subst heq
        rw [searchItem_cons_kind_eq rest ex hk'.symm, hs']
      | inr hmem =>
        have hrest : searchItem x rest ex = some true :=
          ih ⟨y', hmem, hk', hs'⟩
        by_cases hk : x.kind = y.kind
        · rw [searchItem_cons_kind_eq rest ex hk]
          cases hstep : searchStep x y ex with
          | none => exact absurd hstep (searchStep_ne_none_of_true hs' y ex)
          | some b =>
            cases b
            · exact hrest
            · rfl
        · rw [searchItem_cons_kind_ne rest ex hk]
          exact hrest

theorem matchItems_true_iff (xs ys : List JsonValue) (ex : Bool) :
    matchItems xs ys ex = some true ↔
      ∀ x ∈ xs, ∃ y ∈ ys, y.kind = x.kind ∧ searchStep x y ex = some true := by
  induction xs with
  | nil =>
    rw [matchItems]
    simp
  | cons x rest ih =>
    rw [matchItems_cons]
    constructor
    · intro h
      cases hs : searchItem x ys ex with
      | none =>
        rw [hs] at h
        simp at h
      | some b =>
        rw [hs] at h
        cases b
        · simp at h
        · have h' : matchItems rest ys ex = some true := h
          intro z hz
          simp only [List.mem_cons] at hz
          cases hz with
          | inl heq =>
            subst heq
            exact searchItem_true_exists ys hs
          | inr hmem => exact (ih.mp h') z hmem
    · intro hall
      have hx : searchItem x ys ex = some true :=
        (searchItem_true_iff ys).mpr (hall x (List.mem_cons_self x rest))
      rw [hx]
      exact ih.mpr (fun z hz => hall z (List.mem_cons_of_mem x hz))

theorem monoAux : ∀ n : Nat,
    (∀ e, sizeOf e ≤ n → ∀ a, matchFields e a true = some true →
        matchFields e a false = some true)
  ∧ (∀ v, sizeOf v ≤ n → ∀ v', fieldCompare v v' true = some true →
        fieldCompare v v' false = some true)
  ∧ (∀ xs, sizeOf xs ≤ n → ∀ ys, matchItems xs ys true = some true →
        matchItems xs ys false = some true)
  ∧ (∀ x, sizeOf x ≤ n → ∀ ys, searchItem x ys true = some true →
        searchItem x ys false = some true) := by
  intro n
  induction n with
  | zero =>
    refine ⟨?_, ?_, ?_, ?_⟩
    · intro e hsz
      have := sizeOf_jsonFields_pos e
      omega
    · intro v hsz
      have := sizeOf_jsonValue_pos v
      omega
    · intro xs hsz
      have := sizeOf_jsonItems_pos xs
      omega
    · intro x hsz
      have := sizeOf_jsonValue_pos x
      omega
  | succ n ih =>
    obtain ⟨ihF, ihC, ihI, ihS⟩ := ih
    have hF : ∀ e, sizeOf e ≤ n + 1 → ∀ a, matchFields e a true = some true →
        matchFields e a false = some true := by
      intro e hsz a h
      cases e with
      | nil => rw [matchFields]
      | cons p rest =>
        obtain ⟨k, v⟩ := p
        simp only [List.cons.sizeOf_spec, Prod.mk.sizeOf_spec] at hsz
        cases hl : lookupField a k with
        | none =>
          rw [matchFields_cons_none v rest true hl] at h
          simp at h
        | some v' =>
          rw [matchFields_cons_some v rest true hl] at h
          rw [matchFields_cons_some v rest false hl]
          cases hc : fieldCompare v v' true with
          | none =>
            rw [hc] at h
            simp at h
          | some b =>
            rw [hc] at h
            cases b
            · simp at h
            · have h' : matchFields rest a true = some true := h
              rw [ihC v (by omega) v' hc]
              exact ihF rest (by omega) a h'
    have hC : ∀ v, sizeOf v ≤ n + 1 → ∀ v', fieldCompare v v' true = some true →
        fieldCompare v v' false = some true := by
      intro v hsz v' h
      by_cases hk : v.kind = v'.kind
      · cases v with
        | obj o =>
          obtain ⟨o', rfl⟩ := (kind_eq_obj_iff v').mp (by rw [← hk]; rfl)
          rw [fieldCompare_obj_obj] at h ⊢
          simp only [JsonValue.obj.sizeOf_spec] at hsz
          rw [jsonStringMatches_false_mode]
          exact ihF o (by omega) o' (matchFields_of_jsonStringMatches_true h)
        | arr xs =>
          obtain ⟨ys', rfl⟩ := (kind_eq_arr_iff v').mp (by rw [← hk]; rfl)
          rw [fieldCompare_arr_arr] at h ⊢
          simp only [JsonValue.arr.sizeOf_spec] at hsz
          split at h
          · simp at h
          · next hlen =>
            rw [if_neg hlen]
            exact ihI xs (by omega) ys' h
        | str s =>
          rw [fieldCompare_scalar (by simp [JsonValue.kind])
            (by simp [JsonValue.kind])] at h ⊢
          exact h
        | num m =>
          rw [fieldCompare_scalar (by simp [JsonValue.kind])
            (by simp [JsonValue.kind])] at h ⊢
          exact h
        | boolean b =>
          rw [fieldCompare_scalar (by simp [JsonValue.kind])
            (by simp [JsonValue.kind])] at h ⊢
          exact h
        | null =>
          rw [fieldCompare_scalar (by simp [JsonValue.kind])
            (by simp [JsonValue.kind])] at h ⊢
          exact h
      · rw [fieldCompare_kind_ne hk] at h
        simp at h
    have hI : ∀ xs, sizeOf xs ≤ n + 1 → ∀ ys, matchItems xs ys true = some true →
        matchItems xs ys false = some true := by
      intro xs hsz ys h
      cases xs with
      | nil => rw [matchItems]
      | cons x rest =>
        rw [matchItems_cons] at h
        rw [matchItems_cons]
        simp only [List.cons.sizeOf_spec] at hsz
        cases hs : searchItem x ys true with
        | none =>
          rw [hs] at h
          simp at h
        | some b =>
          rw [hs] at h
          cases b
          · simp at h
          · have h' : matchItems rest ys true = some true := h
            rw [ihS x (by omega) ys hs]
            exact ihI rest (by omega) ys h'
    have hS : ∀ x, sizeOf x ≤ n + 1 → ∀ ys, searchItem x ys true = some true →
        searchItem x ys false = some true := by
      intro x hsz ys
      induction ys with
      | nil =>
        intro h
        rw [searchItem] at h
        simp at h
      | cons y rest ihys =>
        intro h
        by_cases hk : x.kind = y.kind
        · rw [searchItem_cons_kind_eq rest true hk] at h
          rw [searchItem_cons_kind_eq rest false hk]
          cases hstep : searchStep x y true with
          | none =>
            rw [hstep] at h
            simp at h
          | some b =>
            rw [hstep] at h
            cases b
            · have h' : searchItem x rest true = some true := h
              have hrest : searchItem x rest false = some true := ihys h'
              obtain ⟨y', hy', hk', hs'⟩ := searchItem_true_exists rest h'
              cases hstep' : searchStep x y false with
              | none => exact absurd hstep' (searchStep_ne_none_of_true hs' y false)
              | some b' =>
                cases b'
                · exact hrest
                · rfl
            · have hpstep : searchStep x y false = some true := by
                cases x with
                | obj o =>
                  obtain ⟨o', rfl⟩ := (kind_eq_obj_iff y).mp (by rw [← hk]; rfl)
                  rw [searchStep_obj_obj] at hstep ⊢
                  simp only [JsonValue.obj.sizeOf_spec] at hsz
                  rw [jsonStringMatches_false_mode]
                  exact ihF o (by omega) o'
                    (matchFields_of_jsonStringMatches_true hstep)
                | arr xs =>
                  rw [searchStep_not_obj (Or.inl (by simp [JsonValue.kind]))] at hstep ⊢
                  exact hstep
                | str s =>
                  rw [searchStep_not_obj (Or.inl (by simp [JsonValue.kind]))] at hstep ⊢
                  exact hstep
                | num m =>
                  rw [searchStep_not_obj (Or.inl (by simp [JsonValue.kind]))] at hstep ⊢
                  exact hstep
                | boolean b =>
                  rw [searchStep_not_obj (Or.inl (by simp [JsonValue.kind]))] at hstep ⊢
                  exact hstep
                | null =>
                  rw [searchStep_not_obj (Or.inl (by simp [JsonValue.kind]))] at hstep ⊢
                  exact hstep
              rw [hpstep]
        · rw [searchItem_cons_kind_ne rest true hk] at h
          rw [searchItem_cons_kind_ne rest false hk]
          exact ihys h
    exact ⟨hF, hC, hI, hS⟩

theorem jsonStringMatches_mono {e a : List (String × JsonValue)}
    (h : jsonStringMatches e a true = some true) :
    jsonStringMatches e a false = some true := by
  rw [jsonStringMatches_false_mode]
  exact (monoAux (sizeOf e)).1 e le_rfl a (matchFields_of_jsonStringMatches_true h)

theorem matchFields_of_all_fields {a : List (String × JsonValue)} :
    ∀ e : List (String × JsonValue),
      (∀ k v, (k, v) ∈ e →
        ∃ v', lookupField a k = some v' ∧ fieldCompare v v' false = some true) →
      matchFields e a false = some true := by
  intro e
  induction e with
  | nil =>
    intro _
    rw [matchFields]
  | cons p rest ih =>
    intro h
    obtain ⟨k, v⟩ := p
    obtain ⟨v', hl, hc⟩ := h k v (List.mem_cons_self _ _)
    rw [matchFields_cons_some v rest false hl, hc]
    exact ih (fun k' v'' hm => h k' v'' (List.mem_cons_of_mem _ hm))

/-- C1: in partial mode the comparison succeeds whenever every expected
field is present in the actual object with a matching value, however
many extra fields the actual object carries; in exact mode a field-count
disagreement between the two objects under comparison — at the top
level or at any nested object level — fails the comparison; on the
spec's example the two modes disagree. -/
theorem claim_c1_partial_tolerance_exact_field_count :
    (∀ e a : List (String × JsonValue), e.length ≠ a.length →
        jsonStringMatches e a true = some false)
  ∧ (∀ o o' : List (String × JsonValue), o.length ≠ o'.length →
        fieldCompare (JsonValue.obj o) (JsonValue.obj o') true = some false)
  ∧ (∀ e a : List (String × JsonValue),
        (∀ k v, (k, v) ∈ e →
          ∃ v', lookupField a k = some v' ∧ fieldCompare v v' false = some true) →
        jsonStringMatches e a false = some true)
  ∧ JsonString.Matches (JsonDoc.valid (JsonValue.obj [("a", JsonValue.num 1)]))
      (JsonDoc.valid (JsonValue.obj [("a", JsonValue.num 1), ("b", JsonValue.num 2)]))
      = some true
  ∧ JsonString.Equals (JsonDoc.valid (JsonValue.obj [("a", JsonValue.num 1)]))
      (JsonDoc.valid (JsonValue.obj [("a", JsonValue.num 1), ("b", JsonValue.num 2)]))
      = some false := by
  refine ⟨?_, ?_, ?_, ?_, ?_⟩
  · intro e a hlen
    rw [jsonStringMatches]
    simp [hlen]
  · intro o o' hlen
    rw [fieldCompare_obj_obj, jsonStringMatches]
    simp [hlen]
  · intro e a h
    rw [jsonStringMatches_false_mode]
    exact matchFields_of_all_fields e h
  · simp [JsonString.Matches, unmarshalMap, jsonStringMatches, matchFields,
      fieldCompare, matchItems, searchItem, searchStep, lookupField, goEq,
      JsonValue.kind]
  · simp [JsonString.Equals, unmarshalMap, jsonStringMatches, matchFields,
      fieldCompare, matchItems, searchItem, searchStep, lookupField, goEq,
      JsonValue.kind]

theorem claim_c1_witness :
    jsonStringMatches [("a", JsonValue.num 1)] [] true = some false :=
  claim_c1_partial_tolerance_exact_field_count.1 _ _ (by simp)

/-- C2: when expected and actual field values are both arrays, differing
lengths fail the match immediately, identically in partial and in exact
mode; on the spec's example even partial mode rejects the longer actual
array. -/
theorem claim_c2_array_length_strict :
    (∀ (xs ys : List JsonValue) (ex : Bool), xs.length ≠ ys.length →
        fieldCompare (JsonValue.arr xs) (JsonValue.arr ys) ex = some false)
  ∧ JsonString.Matches
      (JsonDoc.valid (JsonValue.obj [("a", JsonValue.arr [JsonValue.num 1])]))
      (JsonDoc.valid (JsonValue.obj
        [("a", JsonValue.arr [JsonValue.num 1, JsonValue.num 2])]))
      = some false := by
  refine ⟨?_, ?_⟩
  · intro xs ys ex hlen
    rw [fieldCompare_arr_arr]
    simp [hlen]
  · simp [JsonString.Matches, unmarshalMap, jsonStringMatches, matchFields,
      fieldCompare, matchItems, searchItem, searchStep, lookupField, goEq,
      JsonValue.kind]

theorem claim_c2_witness :
    fieldCompare (JsonValue.arr []) (JsonValue.arr [JsonValue.null]) true
      = some false :=
  claim_c2_array_length_strict.1 _ _ _ (by simp)

/-- C3: for two equal-length arrays the match succeeds exactly when
every expected element has some counterpart in the actual array of the
same kind that matches it (recursively for objects, by Go identity
otherwise); element order is irrelevant, and a counterpart is not
reserved once used, so one actual element may satisfy several distinct
expected elements. -/
theorem claim_c3_unordered_nonreserving :
    (∀ (xs ys : List JsonValue) (ex : Bool), xs.length = ys.length →
        (fieldCompare (JsonValue.arr xs) (JsonValue.arr ys) ex = some true ↔
          ∀ x ∈ xs, ∃ y ∈ ys, y.kind = x.kind ∧ searchStep x y ex = some true))
  ∧ JsonString.Matches
      (JsonDoc.valid (JsonValue.obj
        [("a", JsonValue.arr [JsonValue.num 1, JsonValue.num 2])]))
      (JsonDoc.valid (JsonValue.obj
        [("a", JsonValue.arr [JsonValue.num 2, JsonValue.num 1])]))
      = some true
  ∧ JsonString.Matches
      (JsonDoc.valid (JsonValue.obj
        [("a", JsonValue.arr [JsonValue.num 1, JsonValue.num 1])]))
      (JsonDoc.valid (JsonValue.obj
        [("a", JsonValue.arr [JsonValue.num 1, JsonValue.num 2])]))
      = some true := by
  refine ⟨?_, ?_, ?_⟩
  · intro xs ys ex hlen
    rw [fieldCompare_arr_arr, if_neg (by simp [hlen])]
    exact matchItems_true_iff xs ys ex
  · simp [JsonString.Matches, unmarshalMap, jsonStringMatches, matchFields,
      fieldCompare, matchItems, searchItem, searchStep, lookupField, goEq,
      JsonValue.kind]
  · simp [JsonString.Matches, unmarshalMap, jsonStringMatches, matchFields,
      fieldCompare, matchItems, searchItem, searchStep, lookupField, goEq,
      JsonValue.kind]

theorem claim_c3_witness :
    fieldCompare (JsonValue.arr [JsonValue.num 1])
      (JsonValue.arr [JsonValue.num 1]) false = some true :=
  (claim_c3_unordered_nonreserving.1 [JsonValue.num 1] [JsonValue.num 1]
    false rfl).mpr
    (by simp [searchStep, goEq, JsonValue.kind])

/-- C4: refuted on the code — on a pair of objects carrying an array
nested directly inside an array, the element comparison
`item == otherItem` is a Go `==` between two `[]interface{}` values,
which panics at runtime (modeled `none`) instead of returning a
boolean. -/
theorem claim_c4_panic_on_nested_arrays :
    jsonStringMatches [("a", JsonValue.arr [JsonValue.arr [JsonValue.num 1]])]
      [("a", JsonValue.arr [JsonValue.arr [JsonValue.num 1]])] false = none := by
  simp [jsonStringMatches, matchFields, fieldCompare, matchItems, searchItem,
    searchStep, lookupField, goEq, JsonValue.kind]

/-- C5: exact-mode success implies partial-mode success — whenever
`Equals` returns true on two documents, `Matches` returns true on the
same documents. -/
theorem claim_c5_equals_implies_matches (E A : JsonDoc)
    (h : JsonString.Equals E A = some true) :
    JsonString.Matches E A = some true :=
  jsonStringMatches_mono h

theorem claim_c5_witness :
    JsonString.Matches (JsonDoc.valid (JsonValue.obj [])) JsonDoc.malformed
      = some true :=
  claim_c5_equals_implies_matches _ _
    (by simp [JsonString.Equals, unmarshalMap, jsonStringMatches, matchFields])

/-- C6: refuted on the code — reflexivity fails for a valid JSON object
containing an array nested directly inside an array: comparing such a
document with itself panics (modeled `none`) instead of returning
true. -/
theorem claim_c6_reflexivity_panic :
    JsonString.Equals
      (JsonDoc.valid (JsonValue.obj
        [("b", JsonValue.arr [JsonValue.arr [JsonValue.boolean true]])]))
      (JsonDoc.valid (JsonValue.obj
        [("b", JsonValue.arr [JsonValue.arr [JsonValue.boolean true]])]))
      = none := by
  simp [JsonString.Equals, unmarshalMap, jsonStringMatches, matchFields,
    fieldCompare, matchItems, searchItem, searchStep, lookupField, goEq,
    JsonValue.kind]

/-- C7: refuted on the code — `encoding/json` never invokes the custom
`StubType.UnmarshalJSON` for a key that is absent from the record, so a
stub without a `type` key decodes with the empty string as its type,
not `"mock"`; the `"mock"` default applies only when the key is present
(for instance as the empty string). -/
theorem claim_c7_absent_type_not_mock :
    decodeStubType RawTypeField.absent = some ""
  ∧ decodeStubType RawTypeField.absent ≠ some "mock"
  ∧ decodeStubType (RawTypeField.present (some "")) = some "mock" := by
  refine ⟨rfl, by simp [decodeStubType], by simp [decodeStubType,
    StubType.UnmarshalJSON]⟩

/-- C8: serializing an empty stored content value emits exactly the
literal `{}` and never the empty string; any non-empty stored value is
emitted unchanged. -/
theorem claim_c8_marshal_empty_object (val : String) :
    (val = "" → JsonString.MarshalJSON val = "{}")
  ∧ (val ≠ "" → JsonString.MarshalJSON val = val)
  ∧ JsonString.MarshalJSON val ≠ "" := by
  refine ⟨?_, ?_, ?_⟩
  · intro h
    simp [JsonString.MarshalJSON, h]
  · intro h
    simp [JsonString.MarshalJSON, h]
  · by_cases h : val = ""
    · simp [JsonString.MarshalJSON, h]
    · simp [JsonString.MarshalJSON, h]

theorem claim_c8_witness : JsonString.MarshalJSON "" = "{}" :=
  (claim_c8_marshal_empty_object "").1 rfl

/-- C9: a content field whose text fails to decode is treated as the
empty object for matching: a malformed expected side matches every
actual document in partial mode, and two malformed sides compare equal
in exact mode; in both cases a boolean is returned rather than the
request aborting. -/
theorem claim_c9_malformed_as_empty :
    (∀ A : JsonDoc, JsonString.Matches JsonDoc.malformed A = some true)
  ∧ JsonString.Equals JsonDoc.malformed JsonDoc.malformed = some true := by
  refine ⟨?_, ?_⟩
  · intro A
    simp [JsonString.Matches, unmarshalMap, jsonStringMatches, matchFields]
  · simp [JsonString.Equals, unmarshalMap, jsonStringMatches, matchFields]

/-- C10: a syntactically valid but non-object document on the expected
side behaves exactly like the empty object `{}`: it matches every
actual document in partial mode, and it equals precisely those actual
documents whose decoded field map is empty. -/
theorem claim_c10_nonobject_as_empty (v : JsonValue)
    (hv : v.kind ≠ JsonKind.obj) (A : JsonDoc) :
    JsonString.Matches (JsonDoc.valid v) A = some true
  ∧ (JsonString.Equals (JsonDoc.valid v) A = some true ↔ unmarshalMap A = []) := by
  have hempty : unmarshalMap (JsonDoc.valid v) = [] := by
    cases v <;> simp_all [unmarshalMap, JsonValue.kind]
  refine ⟨?_, ?_⟩
  · simp [JsonString.Matches, hempty, jsonStringMatches, matchFields]
  · unfold JsonString.Equals
    rw [hempty]
    cases hA : unmarshalMap A with
    | nil => simp [jsonStringMatches, matchFields]
    | cons p rest => simp [jsonStringMatches, matchFields]

theorem claim_c10_witness :
    JsonString.Matches (JsonDoc.valid (JsonValue.num 5))
      (JsonDoc.valid (JsonValue.str "x")) = some true :=
  (claim_c10_nonobject_as_empty (JsonValue.num 5)
    (by simp [JsonValue.kind]) _).1
